import Mathlib

set_option maxRecDepth 100000

/-!
Verification development for the eth-fraud-dataset-pipeline repository.

The embedding covers the two pipeline scripts
`src/dataset/final/GNN/build_unified_dataset.py` (labels/mapping, canonical
edge table, window index, window enrichment with chunked merge-append,
window export) and `src/dataset/final/LSTM/build_unified_dataset.py`
(daily filtering, weekly and monthly rollup), plus the verify mode of
`src/dataset/final/make_checksums.py`.

Parquet tables are embedded as Lean lists of rows; a file that may or may
not exist on disk is an `Option` of its contents.  polars expressions are
translated column-by-column into list operations.  The strftime labels
`%Y-%m` and `%G-W%V` used by both pipelines are embedded as the
order-isomorphic integer codes `12*year + month` and
`100*isoYear + isoWeek`; the zero-padded label strings produced by
strftime compare lexicographically exactly as these codes compare
numerically, and two labels are equal iff the codes are equal, so grouping
and sorting by the string label is grouping and sorting by the code.
-/

/- ===================== Calendar core =====================
Proleptic Gregorian calendar, embedded by iterating a successor/predecessor
step from the Unix epoch (1970-01-01).  `dateOfDay n` is the civil date of
day number `n` (days since the epoch, negative allowed), exactly what
`polars.from_epoch(ts, "s")` followed by taking the date yields for
`n = ts.fdiv 86400`. -/

def isLeap (y : Int) : Bool :=
  (y % 4 == 0 && y % 100 != 0) || (y % 400 == 0)

def monthLen (y : Int) (m : Nat) : Nat :=
  if m = 2 then (if isLeap y then 29 else 28)
  else if m = 4 ∨ m = 6 ∨ m = 9 ∨ m = 11 then 30
  else 31

/-- Days in year `y` strictly before month `m` (month numbers 1..12). -/
def daysBefore (y : Int) : Nat → Nat
  | 0 => 0
  | 1 => 0
  | m + 2 => daysBefore y (m + 1) + monthLen y (m + 1)

structure Date where
  y : Int
  m : Nat
  d : Nat
  doy : Nat
deriving DecidableEq

def validDate (dt : Date) : Prop :=
  1 ≤ dt.m ∧ dt.m ≤ 12 ∧ 1 ≤ dt.d ∧ dt.d ≤ monthLen dt.y dt.m ∧
    dt.doy = daysBefore dt.y dt.m + dt.d

instance (dt : Date) : Decidable (validDate dt) := by
  unfold validDate; infer_instance

def succDay (dt : Date) : Date :=
  if dt.d < monthLen dt.y dt.m then ⟨dt.y, dt.m, dt.d + 1, dt.doy + 1⟩
  else if dt.m < 12 then ⟨dt.y, dt.m + 1, 1, dt.doy + 1⟩
  else ⟨dt.y + 1, 1, 1, 1⟩

def predDay (dt : Date) : Date :=
  if 1 < dt.d then ⟨dt.y, dt.m, dt.d - 1, dt.doy - 1⟩
  else if 1 < dt.m then ⟨dt.y, dt.m - 1, monthLen dt.y (dt.m - 1), dt.doy - 1⟩
  else ⟨dt.y - 1, 12, 31, daysBefore (dt.y - 1) 12 + 31⟩

def epochDate : Date := ⟨1970, 1, 1, 1⟩

def succIter : Nat → Date → Date
  | 0, dt => dt
  | k + 1, dt => succDay (succIter k dt)

def predIter : Nat → Date → Date
  | 0, dt => dt
  | k + 1, dt => predDay (predIter k dt)

def dateOfDay : Int → Date
  | .ofNat k => succIter k epochDate
  | .negSucc k => predIter (k + 1) epochDate

/- ===================== Window labels =====================
`build_window_index` (GNN, lines 119-150) labels each edge timestamp with
strftime "%Y-%m" (calendar month) and "%G-W%V" (ISO week-based year and
week).  The LSTM pipeline (lines 101-113) attaches the same two strftime
labels to the date in its `day` column.  The zero-padded label strings are
order-isomorphic to the integer codes `12*y + m` and `100*isoYear + week`
defined here, which the development uses as the label values. -/

def monthCodeD (dt : Date) : Int := 12 * dt.y + dt.m

/-- Day number of the Thursday of the ISO week (Monday..Sunday block)
containing day `n`; 1970-01-01 (day 0) was a Thursday, so the block index
is `(n+3).fdiv 7` and its Thursday is day `7*((n+3).fdiv 7)`. -/
def weekThursday (n : Int) : Int := 7 * ((n + 3).fdiv 7)

/-- ISO week-based year of day `n` (strftime %G): the calendar year of the
week's Thursday. -/
def isoYear (n : Int) : Int := (dateOfDay (weekThursday n)).y

/-- ISO week number of day `n` (strftime %V): position of the week's
Thursday within its calendar year. -/
def isoWeekNum (n : Int) : Nat := ((dateOfDay (weekThursday n)).doy - 1) / 7 + 1

/-- Integer code of the strftime "%G-W%V" label of day `n`;
order-isomorphic to the zero-padded label string since the week number is
at most 53. -/
def isoCode (n : Int) : Int := 100 * isoYear n + isoWeekNum n

/- Timestamp-level label functions of the GNN Window Indexer
(`build_window_index`, GNN lines 119-129): epoch seconds are converted to
a datetime (`pl.from_epoch(ts, "s")`), whose civil date is day
`ts.fdiv 86400`, then formatted with strftime "%Y-%m" and "%G-W%V". -/

def tsDay (ts : Int) : Int := ts.fdiv 86400

def tsMonthLabel (ts : Int) : Int := monthCodeD (dateOfDay (tsDay ts))

def tsWeekLabel (ts : Int) : Int := isoCode (tsDay ts)

/- Day-level label functions of the LSTM rollup (`lf_daily`, LSTM lines
101-113): the `day` column is cast to a date and formatted with the same
two strftime patterns. -/

def dayMonthLabel (day : Int) : Int := monthCodeD (dateOfDay day)

def dayWeekLabel (day : Int) : Int := isoCode day

/- ===================== Canonical edge table =====================
`build_edges_all` (GNN lines 85-114): each raw transaction row is
normalized into the canonical edge schema.  The raw datetime column is
already carried as integer epoch seconds (`.dt.epoch("s")` output). -/

structure Edge where
  srcId : Nat
  dstId : Nat
  ts : Int
  valueWei : String
  txFeeWei : String
  blockNumber : Int
  contractCreation : Bool
  txHash : String
deriving DecidableEq

/- ===================== Window index (build_window_index) =====================
GNN lines 119-150: a grouped aggregation over the edge table's `ts`
column keyed by the strftime label, producing per label
`(window_min_ts, window_end_ts, edges_cnt)`.  The final `.sort(label)`
only permutes the small index table and is not modelled; no claim depends
on row order. -/

structure Window where
  label : Int
  windowMinTs : Int
  windowEndTs : Int
  edgesCnt : Nat
deriving DecidableEq

def minAux : Int → List Int → Int
  | a, [] => a
  | a, x :: xs => minAux (min a x) xs

def maxAux : Int → List Int → Int
  | a, [] => a
  | a, x :: xs => maxAux (max a x) xs

/-- The aggregated index row of label `l`: `min(ts)`, `max(ts)` and count
over the group of timestamps labelled `l` (only used for labels that
occur, where the group is nonempty). -/
def winOf (f : Int → Int) (tss : List Int) (l : Int) : Window :=
  match tss.filter (fun t => f t = l) with
  | [] => ⟨l, 0, 0, 0⟩
  | t :: rest => ⟨l, minAux t rest, maxAux t rest, rest.length + 1⟩

def buildWindowIndexBy (f : Int → Int) (tss : List Int) : List Window :=
  ((tss.map f).dedup).map (winOf f tss)

def month_window_meta (edges : List Edge) : List Window :=
  buildWindowIndexBy tsMonthLabel (edges.map Edge.ts)

def week_window_meta (edges : List Edge) : List Window :=
  buildWindowIndexBy tsWeekLabel (edges.map Edge.ts)

/- ===================== Identity assignment =====================
GNN lines 44 and 56-80 (labels/mapping stage) and 102-105 (edge
materializer): `node_id = hash(lowercase(address), HASH_SEEDS)` cast to
UInt64.  String lowercasing (`str.to_lowercase`) is embedded as the
character-wise `Char.toLower` map (addresses are ASCII hex strings). -/

def toLowerStr (s : String) : String := ⟨s.data.map Char.toLower⟩

/-- Modelled from the spec: the seeded 64-bit string hash behind
`.hash(seed=20250823, seed_1=17, seed_2=31, seed_3=73)` lives inside the
dataframe engine, outside this repository.  The spec fixes only its
contract -- a pure, total, deterministic function of the string and the
fixed seed tuple, returning a uint64 -- so it is modelled as a
deterministic fold over the characters, reduced modulo 2^64. -/
def hashSeeded (seed seed1 seed2 seed3 : Nat) (s : String) : Nat :=
  s.data.foldl (fun a c => (a * seed1 + c.toNat * seed2 + seed3) % 2 ^ 64)
    (seed % 2 ^ 64)

/-- HASH_SEEDS (GNN line 44): seed=20250823, seed_1=17, seed_2=31, seed_3=73. -/
def HASH_SEEDS : Nat × Nat × Nat × Nat := (20250823, 17, 31, 73)

def applyHash (s : String) : Nat :=
  hashSeeded HASH_SEEDS.1 HASH_SEEDS.2.1 HASH_SEEDS.2.2.1 HASH_SEEDS.2.2.2 s

/-- node_id assignment of the labels/mapping stage (GNN lines 59-73):
hash of the lowercased address under HASH_SEEDS. -/
def labelsNodeId (address : String) : Nat := applyHash (toLowerStr address)

/-- src_id assignment of the edge materializer (GNN lines 92 and 103-104). -/
def edgeSrcId (fromAddress : String) : Nat := applyHash (toLowerStr fromAddress)

/-- dst_id assignment of the edge materializer (GNN lines 93 and 105). -/
def edgeDstId (toAddress : String) : Nat := applyHash (toLowerStr toAddress)


/- ===================== Window enrichment =====================
enrich_meta_and_build_targets / process_freq (GNN lines 155-237). -/

structure LabelRow where
  nodeId : Nat
  isScam : Int
  isContract : Int
  address : String
deriving DecidableEq

/-- tg_ids (GNN lines 156-158): the distinct node_id column of
targets_global. -/
def tgIds (targetsGlobal : List LabelRow) : List Nat :=
  (targetsGlobal.map LabelRow.nodeId).dedup

/-- Distinct participants of a window's ts-range (GNN lines 172-184): the
src_id and dst_id columns of the range-filtered edge table, concatenated
vertically and deduplicated. -/
def windowNodes (edges : List Edge) (tsMin tsMax : Int) : List Nat :=
  (((edges.filter (fun e => tsMin ≤ e.ts ∧ e.ts ≤ tsMax)).map Edge.srcId) ++
    ((edges.filter (fun e => tsMin ≤ e.ts ∧ e.ts ≤ tsMax)).map Edge.dstId)).dedup

/-- One window's WindowTarget contribution (GNN lines 189-193): the
window's participant set inner-joined with tg_ids, tagged with the window
label; an empty intersection contributes no chunk. -/
def targetsOfWindow (edges : List Edge) (tg : List Nat) (w : Window) :
    List (Int × Nat) :=
  ((windowNodes edges w.windowMinTs w.windowEndTs).filter (fun n => n ∈ tg)).map
    (fun n => (w.label, n))

/-- A flush (GNN lines 196-209, 215-223): concatenate the buffered chunks
and merge into the output file by reading the current content (absent
file contributes nothing), concatenating, and rewriting the whole file. -/
def mergeFlush (file : Option (List (Int × Nat))) (chunks : List (List (Int × Nat))) :
    Option (List (Int × Nat)) :=
  some (file.getD [] ++ chunks.flatten)

/-- The per-window loop of process_freq (GNN lines 167-223), restricted to
its targets output: windows are processed in meta order, a window's
nonempty contribution (`targets_win.height > 0`) joins the chunk buffer,
the buffer is flushed into the file once it holds 50 chunks (chunk_size,
line 165), and a final flush writes any remainder. -/
def processWindows (edges : List Edge) (tg : List Nat) :
    List Window → Option (List (Int × Nat)) → List (List (Int × Nat)) →
    Option (List (Int × Nat))
  | [], file, chunks => if chunks = [] then file else mergeFlush file chunks
  | w :: rest, file, chunks =>
      let rows := targetsOfWindow edges tg w
      let chunks1 := if rows = [] then chunks else chunks ++ [rows]
      if 50 ≤ chunks1.length then
        processWindows edges tg rest (mergeFlush file chunks1) []
      else processWindows edges tg rest file chunks1

/-- One run of the targets side of process_freq over a meta table,
starting from the current state of the targets output file. -/
def enrichTargets (edges : List Edge) (tg : List Nat) (meta : List Window)
    (file : Option (List (Int × Nat))) : Option (List (Int × Nat)) :=
  processWindows edges tg meta file []

/-- All WindowTarget rows one pass derives, in window order. -/
def windowTargetRows (edges : List Edge) (tg : List Nat) (meta : List Window) :
    List (Int × Nat) :=
  (meta.map (targetsOfWindow edges tg)).flatten

/-- nodes_cnt enrichment of the window index (GNN lines 180-186, 226-231):
the meta table left-joined with the per-window participant counts. -/
def enrichMeta (edges : List Edge) (meta : List Window) : List (Window × Nat) :=
  meta.map (fun w => (w, (windowNodes edges w.windowMinTs w.windowEndTs).length))

/- ===================== Window export (export_windows) =====================
GNN lines 242-277: for each window of each granularity, if the partition
file already exists the window is skipped, otherwise the ts-range filtered
slice of the edge table is written.  The partition directory is embedded
as a map from window label to the optional file content. -/

def exportStep (edges : List Edge) (fs : Int → Option (List Edge)) (w : Window) :
    Int → Option (List Edge) :=
  match fs w.label with
  | some _ => fs
  | none => fun l =>
      if l = w.label then
        some (edges.filter (fun e => w.windowMinTs ≤ e.ts ∧ e.ts ≤ w.windowEndTs))
      else fs l

def export_windows (edges : List Edge) (meta : List Window)
    (fs : Int → Option (List Edge)) : Int → Option (List Edge) :=
  meta.foldl (exportStep edges) fs

/- ===================== build_edges_all =====================
GNN lines 85-114: raw transaction files are globbed; zero matching files
raises FileNotFoundError before the canonical edge table is written.  The
raw datetime column is carried as integer epoch seconds (the value of
`.dt.epoch("s")`). -/

structure RawTx where
  fromAddress : String
  toAddress : String
  timestampSec : Int
  valueWei : String
  txFeeWei : String
  blockNumber : Int
  contractCreation : Bool
  txHash : String
deriving DecidableEq

/-- The canonical-schema transform (GNN lines 91-110): lowercase and hash
both endpoint addresses, keep epoch-second timestamps, carry monetary
fields as text. -/
def rawToEdge (r : RawTx) : Edge :=
  ⟨edgeSrcId r.fromAddress, edgeDstId r.toAddress, r.timestampSec,
    r.valueWei, r.txFeeWei, r.blockNumber, r.contractCreation, r.txHash⟩

def build_edges_all (srcFiles : List (List RawTx)) : Except String (List Edge) :=
  if srcFiles.isEmpty then
    Except.error "no input transactions found in source directory"
  else Except.ok (srcFiles.flatten.map rawToEdge)

structure GnnFiles where
  edgesAll : Option (List Edge)
deriving DecidableEq

/-- Process-level effect of running build_edges_all: a raised error leaves
every file untouched; success writes the canonical edge table. -/
def runBuildEdgesAll (srcFiles : List (List RawTx)) (st : GnnFiles) : GnnFiles :=
  match build_edges_all srcFiles with
  | Except.error _ => st
  | Except.ok es => ⟨some es⟩

/- ===================== Exact decimal aggregation =====================
sum_dec_str (LSTM lines 133-134) and sum_dec_str_m (LSTM lines 194-195):
a decimal-text column is cast to Decimal(38,9) (nulls for unparseable
values under strict=False), nulls are filled with 0, the group is summed
exactly, and the sum is re-encoded as text.  A Decimal(38,9) value is an
integer count of 10^-9 units, embedded as an unbounded Int. -/

def digitVal (c : Char) : Nat := c.toNat - 48

def digitsVal (l : List Char) : Nat := l.foldl (fun a c => 10 * a + digitVal c) 0

def digitChar (n : Nat) : Char := Char.ofNat (48 + n)

def natDigitsAux : Nat → Nat → List Char
  | 0, _ => []
  | fuel + 1, n =>
      if n < 10 then [digitChar n]
      else natDigitsAux fuel (n / 10) ++ [digitChar (n % 10)]

/-- Base-10 digit string of a natural number, most significant first. -/
def natDigits (n : Nat) : List Char := natDigitsAux (n + 1) n

/-- Split a character list at the first decimal point. -/
def splitAtDot : List Char → List Char × Option (List Char)
  | [] => ([], none)
  | c :: rest =>
      if c = '.' then ([], some rest)
      else
        let p := splitAtDot rest
        (c :: p.1, p.2)

/-- Parse an unsigned decimal-text value into 10^-9 units: integer
digits, optionally a point and 1..9 fractional digits. -/
def parseUnsignedDec (l : List Char) : Option Nat :=
  let p := splitAtDot l
  match p.2 with
  | none =>
      if p.1 ≠ [] ∧ p.1.all Char.isDigit then some (digitsVal p.1 * 10 ^ 9)
      else none
  | some fp =>
      if p.1 ≠ [] ∧ p.1.all Char.isDigit ∧ fp ≠ [] ∧ fp.length ≤ 9 ∧
          fp.all Char.isDigit then
        some (digitsVal p.1 * 10 ^ 9 + digitsVal fp * 10 ^ (9 - fp.length))
      else none

/-- The Utf8 → Decimal(38,9) cast on one value (none encodes the null the
cast yields on an unparseable value). -/
def parseDec (s : String) : Option Int :=
  if s.data.head? = some '-' then
    (parseUnsignedDec s.data.tail).map (fun n : Nat => -(n : Int))
  else (parseUnsignedDec s.data).map (fun n : Nat => (n : Int))

/-- The Decimal(38,9) → Utf8 cast: sign, integer digits, a point, and
exactly nine (zero-padded) fractional digits. -/
def renderDec (v : Int) : String :=
  ⟨(if v < 0 then ['-'] else []) ++
    natDigits (v.natAbs / 10 ^ 9) ++
    '.' :: (List.replicate (9 - (natDigits (v.natAbs % 10 ^ 9)).length) '0' ++
      natDigits (v.natAbs % 10 ^ 9))⟩

/-- Value of one decimal-text cell after cast and fill_null(0). -/
def decVal (s : String) : Int := (parseDec s).getD 0

/-- sum_dec_str (LSTM lines 133-134): cast the group's decimal-text
values to Decimal(38,9), fill nulls with 0, sum, re-encode as text. -/
def sum_dec_str (xs : List String) : String := renderDec ((xs.map decVal).sum)

/-- sum_dec_str_m (LSTM lines 194-195): identical aggregation applied to
the weekly table's (already textual) column -- the extra `.cast(pl.Utf8)`
on a Utf8 column is the identity. -/
def sum_dec_str_m (xs : List String) : String := renderDec ((xs.map decVal).sum)

/- ===================== Multi-resolution rollup =====================
LSTM lines 96-243.  One representative SUM-tagged integer feature column
(`cnt`, standing for the INT_COUNTS columns) is carried through the
rollup; the decimal (ETH_NUMS) column policy is embedded separately as
sum_dec_str / sum_dec_str_m. -/

structure DailyRaw where
  address : String
  day : Int
  cnt : Int
deriving DecidableEq

structure DailyRow where
  nodeId : Nat
  day : Int
  cnt : Int
deriving DecidableEq

/-- lf_daily (LSTM lines 101-113): lowercase the address, inner-join with
the address → id map (rows without a mapping are dropped), and annotate
with the week and month strftime labels of `day` (the label columns are
dayWeekLabel and dayMonthLabel applied to the row's day). -/
def lf_daily (addrMap : List (String × Nat)) (rows : List DailyRaw) : List DailyRow :=
  rows.filterMap (fun r =>
    match addrMap.find? (fun p => p.1 = toLowerStr r.address) with
    | some p => some ⟨p.2, r.day, r.cnt⟩
    | none => none)

structure WeeklyRow where
  nodeId : Nat
  week : Int
  cnt : Int
deriving DecidableEq

/-- One weekly part (LSTM lines 147-162): the daily rows of ISO week `w`,
grouped by node_id, SUM policy on the counter column. -/
def weeklyPart (daily : List DailyRow) (w : Int) : List WeeklyRow :=
  let rows := daily.filter (fun r => dayWeekLabel r.day = w)
  ((rows.map DailyRow.nodeId).dedup).map (fun n =>
    ⟨n, w, ((rows.filter (fun r => r.nodeId = n)).map DailyRow.cnt).sum⟩)

/-- weekly.parquet (LSTM lines 147-170): the concatenated per-week parts
over weeks_list (the week column of the GNN week meta). -/
def weeklyTable (daily : List DailyRow) (weeksList : List Int) : List WeeklyRow :=
  (weeksList.map (weeklyPart daily)).flatten

/-- week_month_map (LSTM lines 178-183): the distinct (week, month) label
pairs observed in daily_filtered. -/
def week_month_map (daily : List DailyRow) : List (Int × Int) :=
  (daily.map (fun r => (dayWeekLabel r.day, dayMonthLabel r.day))).dedup

/-- w_in_m (LSTM lines 220-221): the week labels the map associates with
month `m`. -/
def weeksOfMonth (daily : List DailyRow) (m : Int) : List Int :=
  ((week_month_map daily).filter (fun p => p.2 = m)).map Prod.fst

structure MonthlyRow where
  nodeId : Nat
  month : Int
  cnt : Int
deriving DecidableEq

/-- One monthly part (LSTM lines 212-234): the weekly rows whose week the
lookup assigns to month `m`, grouped by node_id with the same SUM policy;
a month with no mapped weeks is skipped. -/
def monthlyPart (weekly : List WeeklyRow) (daily : List DailyRow) (m : Int) :
    List MonthlyRow :=
  let wInM := weeksOfMonth daily m
  if wInM = [] then []
  else
    let rows := weekly.filter (fun r => r.week ∈ wInM)
    ((rows.map WeeklyRow.nodeId).dedup).map (fun n =>
      ⟨n, m, ((rows.filter (fun r => r.nodeId = n)).map WeeklyRow.cnt).sum⟩)

/-- monthly.parquet (LSTM lines 212-243): the concatenated per-month
parts over months_list (the month column of the GNN month meta). -/
def monthlyTable (daily : List DailyRow) (weeksList monthsList : List Int) :
    List MonthlyRow :=
  (monthsList.map (monthlyPart (weeklyTable daily weeksList) daily)).flatten

/-- Week `w` feeds month `m`'s output: `m` is iterated, `w` is among the
weeks the lookup assigns to `m`, and the weekly table has a row of week
`w` (so that week's weekly aggregate enters `m`'s grouped rows). -/
def weekContributesTo (daily : List DailyRow) (weeksList monthsList : List Int)
    (w m : Int) : Prop :=
  m ∈ monthsList ∧ w ∈ weeksOfMonth daily m ∧
    ∃ r ∈ weeklyTable daily weeksList, r.week = w

instance (daily : List DailyRow) (weeksList monthsList : List Int) (w m : Int) :
    Decidable (weekContributesTo daily weeksList monthsList w m) := by
  unfold weekContributesTo; infer_instance

structure LstmFiles where
  dailyFiltered : Option (List DailyRow)
  weekly : Option (List WeeklyRow)
  monthly : Option (List MonthlyRow)
deriving DecidableEq

/-- Input checks of the LSTM pipeline (LSTM lines 83-85 and 92-94):
missing labels/mapping artifacts, or an empty daily source glob, raise
FileNotFoundError. -/
def lstm_input_checks (labelsExists mappingExists : Bool)
    (dailyFiles : List (List DailyRaw)) : Except String Unit :=
  if labelsExists = false ∨ mappingExists = false then
    Except.error "labels or mapping not found in gnn_dataset"
  else if dailyFiles.isEmpty then
    Except.error "no daily parquet inputs found"
  else Except.ok ()

/-- Process-level effect of the LSTM pipeline script: the checks run
before daily_filtered, weekly and monthly are written, so a raised error
leaves all three untouched. -/
def runLstmRollup (labelsExists mappingExists : Bool)
    (dailyFiles : List (List DailyRaw)) (addrMap : List (String × Nat))
    (weeksList monthsList : List Int) (st : LstmFiles) : LstmFiles :=
  match lstm_input_checks labelsExists mappingExists dailyFiles with
  | Except.error _ => st
  | Except.ok _ =>
      let daily := lf_daily addrMap dailyFiles.flatten
      ⟨some daily, some (weeklyTable daily weeksList),
        some (monthlyTable daily weeksList monthsList)⟩

/- ===================== make_checksums verify mode =====================
make_checksums.py main(), lines 160-186.  The parsed CHECKSUMS.md table is
a path → sha256 dict (later rows overwrite earlier ones, as dict insertion
in load_checksums_table does); the files on disk are (relative path,
actual sha256) pairs with the hash abstracted as the given string. -/

def lookupRef (ref : List (String × String)) (p : String) : Option String :=
  (ref.reverse.find? (fun e => e.1 = p)).map Prod.snd

/-- Number of [MISMATCH] reports: files on disk that are listed and whose
recorded sha256 differs from the actual one. -/
def verifyBadCount (ref files : List (String × String)) : Nat :=
  files.countP (fun e =>
    match lookupRef ref e.1 with
    | some shaRef => shaRef ≠ e.2
    | none => false)

/-- Exit code of verify mode: 2 when CHECKSUMS.md is missing or parses to
an empty table, else 0 iff bad == 0 (files absent from the table are only
printed as [MISSING IN TABLE]). -/
def verifyExitCode (ref files : List (String × String)) : Nat :=
  if ref = [] then 2
  else if verifyBadCount ref files = 0 then 0 else 1

/-- No file on disk that is listed in the table has a differing sha256. -/
def mismatchFree (ref files : List (String × String)) : Prop :=
  ∀ e ∈ files, ∀ shaRef, lookupRef ref e.1 = some shaRef → shaRef = e.2

instance (ref files : List (String × String)) : Decidable (mismatchFree ref files) := by
  unfold mismatchFree; infer_instance

/- ===================== Claim theorems ===================== -/

def sampleEdgeA : Edge := ⟨1, 2, 100000, "1", "0", 1, false, "a"⟩

def sampleEdgeB : Edge := ⟨3, 4, 3000000, "2", "0", 2, false, "b"⟩

lemma monthLen_pos (y : Int) (m : Nat) : 0 < monthLen y m := by
  unfold monthLen
  split
  · split <;> omega
  · split <;> omega

lemma monthLen_le (y : Int) (m : Nat) : monthLen y m ≤ 31 := by
  unfold monthLen
  split
  · split <;> omega
  · split <;> omega

lemma daysBefore_succ (y : Int) (m : Nat) (hm : 1 ≤ m) :
    daysBefore y (m + 1) = daysBefore y m + monthLen y m := by
  match m, hm with
  | k + 1, _ => rfl

lemma valid_epoch : validDate epochDate := by decide

lemma valid_succDay {dt : Date} (h : validDate dt) : validDate (succDay dt) := by
  obtain ⟨h1, h2, h3, h4, h5⟩ := h
  unfold succDay validDate
  split
  · rename_i hd
    refine ⟨?_, ?_, ?_, ?_, ?_⟩ <;> dsimp only <;> omega
  · split
    · rename_i hd hm
      have hdb := daysBefore_succ dt.y dt.m h1
      have hpos := monthLen_pos dt.y (dt.m + 1)
      refine ⟨?_, ?_, ?_, ?_, ?_⟩ <;> dsimp only <;> omega
    · rename_i hd hm
      have hpos := monthLen_pos (dt.y + 1) 1
      refine ⟨?_, ?_, ?_, ?_, ?_⟩ <;> dsimp only
      · omega
      · omega
      · omega
      · omega
      · rfl

lemma valid_predDay {dt : Date} (h : validDate dt) : validDate (predDay dt) := by
  obtain ⟨h1, h2, h3, h4, h5⟩ := h
  unfold predDay validDate
  split
  · rename_i hd
    refine ⟨?_, ?_, ?_, ?_, ?_⟩ <;> dsimp only <;> omega
  · split
    · rename_i hd hm
      have hsub : dt.m - 1 + 1 = dt.m := by omega
      have hdb := daysBefore_succ dt.y (dt.m - 1) (by omega)
      rw [hsub] at hdb
      have hpos := monthLen_pos dt.y (dt.m - 1)
      refine ⟨?_, ?_, ?_, ?_, ?_⟩ <;> dsimp only <;> omega
    · rename_i hd hm
      have h31 : monthLen (dt.y - 1) 12 = 31 := by simp [monthLen]
      refine ⟨?_, ?_, ?_, ?_, ?_⟩ <;> dsimp only <;> omega

lemma succDay_predDay {dt : Date} (h : validDate dt) : succDay (predDay dt) = dt := by
  obtain ⟨h1, h2, h3, h4, h5⟩ := h
  unfold predDay
  split
  · rename_i hd
    unfold succDay
    dsimp only
    rw [if_pos (by omega : dt.d - 1 < monthLen dt.y dt.m)]
    have hdoy : 1 ≤ dt.doy := by omega
    cases dt with
    | mk y m d doy =>
        dsimp only at *
        congr 1 <;> omega
  · split
    · rename_i hd hm
      unfold succDay
      dsimp only
      rw [if_neg (by omega), if_pos (by omega)]
      have hdoy : 1 ≤ dt.doy := by omega
      cases dt with
      | mk y m d doy =>
          dsimp only at *
          congr 1 <;> omega
    · rename_i hd hm
      have hm1 : dt.m = 1 := by omega
      have hd1 : dt.d = 1 := by omega
      have hdoy : dt.doy = 1 := by
        rw [h5, hm1, hd1]; rfl
      have h31 : monthLen (dt.y - 1) 12 = 31 := by simp [monthLen]
      unfold succDay
      dsimp only
      rw [if_neg (by omega), if_neg (by omega)]
      cases dt with
      | mk y m d doy =>
          dsimp only at *
          congr 1 <;> omega

lemma predDay_succDay {dt : Date} (h : validDate dt) : predDay (succDay dt) = dt := by
  obtain ⟨h1, h2, h3, h4, h5⟩ := h
  unfold succDay
  split
  · rename_i hd
    unfold predDay
    dsimp only
    rw [if_pos (by omega)]
    cases dt with
    | mk y m d doy =>
        dsimp only at *
        congr 1 <;> omega
  · split
    · rename_i hd hm
      unfold predDay
      dsimp only
      rw [if_neg (by omega), if_pos (by omega)]
      have hdl : dt.d = monthLen dt.y dt.m := by omega
      cases dt with
      | mk y m d doy =>
          dsimp only at *
          simp only [Nat.add_sub_cancel]
          congr 1 <;> omega
    · rename_i hd hm
      have hm1 : dt.m = 12 := by omega
      have h31 : monthLen dt.y 12 = 31 := by simp [monthLen]
      have hle := h4
      have hge : monthLen dt.y dt.m ≤ dt.d := by omega
      rw [hm1, h31] at hle hge
      have hdb : daysBefore dt.y 12 = daysBefore dt.y dt.m := by rw [hm1]
      unfold predDay
      dsimp only
      rw [if_neg (by omega), if_neg (by omega)]
      have hy : dt.y + 1 - 1 = dt.y := by ring
      rw [hy]
      cases dt with
      | mk y m d doy =>
          dsimp only at *
          congr 1 <;> omega

lemma valid_succIter (k : Nat) : validDate (succIter k epochDate) := by
  induction k with
  | zero => exact valid_epoch
  | succ n ih => exact valid_succDay ih

lemma valid_predIter (k : Nat) : validDate (predIter k epochDate) := by
  induction k with
  | zero => exact valid_epoch
  | succ n ih => exact valid_predDay ih

lemma valid_dateOfDay (n : Int) : validDate (dateOfDay n) := by
  cases n with
  | ofNat k => exact valid_succIter k
  | negSucc k => exact valid_predIter (k + 1)

lemma dateOfDay_step (n : Int) : dateOfDay (n + 1) = succDay (dateOfDay n) := by
  cases n with
  | ofNat k =>
      have : (Int.ofNat k) + 1 = Int.ofNat (k + 1) := rfl
      rw [this]
      rfl
  | negSucc k =>
      cases k with
      | zero =>
          have : (Int.negSucc 0) + 1 = Int.ofNat 0 := rfl
          rw [this]
          show epochDate = succDay (predDay epochDate)
          exact (succDay_predDay valid_epoch).symm
      | succ j =>
          have : (Int.negSucc (j + 1)) + 1 = Int.negSucc j := by
            simp only [Int.negSucc_eq]
            push_cast
            ring
          rw [this]
          show predIter (j + 1) epochDate = succDay (predIter (j + 2) epochDate)
          show predIter (j + 1) epochDate = succDay (predDay (predIter (j + 1) epochDate))
          exact (succDay_predDay (valid_predIter (j + 1))).symm

lemma daysBefore_le_succ (y : Int) (m : Nat) :
    daysBefore y m ≤ daysBefore y (m + 1) := by
  cases m with
  | zero => simp [daysBefore]
  | succ k => rw [daysBefore_succ y (k + 1) (by omega)]; omega

lemma daysBefore_mono (y : Int) {m1 m2 : Nat} (h : m1 ≤ m2) :
    daysBefore y m1 ≤ daysBefore y m2 := by
  induction m2, h using Nat.le_induction with
  | base => exact le_refl _
  | succ k hk ih => exact le_trans ih (daysBefore_le_succ y k)

lemma daysBefore_13 (y : Int) : daysBefore y 13 = 337 + monthLen y 2 := by
  have e : ∀ m : Nat, 1 ≤ m → daysBefore y (m + 1) = daysBefore y m + monthLen y m :=
    daysBefore_succ y
  rw [show (13:Nat) = 12 + 1 from rfl, e 12 (by omega)]
  rw [show (12:Nat) = 11 + 1 from rfl, e 11 (by omega)]
  rw [show (11:Nat) = 10 + 1 from rfl, e 10 (by omega)]
  rw [show (10:Nat) = 9 + 1 from rfl, e 9 (by omega)]
  rw [show (9:Nat) = 8 + 1 from rfl, e 8 (by omega)]
  rw [show (8:Nat) = 7 + 1 from rfl, e 7 (by omega)]
  rw [show (7:Nat) = 6 + 1 from rfl, e 6 (by omega)]
  rw [show (6:Nat) = 5 + 1 from rfl, e 5 (by omega)]
  rw [show (5:Nat) = 4 + 1 from rfl, e 4 (by omega)]
  rw [show (4:Nat) = 3 + 1 from rfl, e 3 (by omega)]
  rw [show (3:Nat) = 2 + 1 from rfl, e 2 (by omega)]
  rw [show (2:Nat) = 1 + 1 from rfl, e 1 (by omega)]
  have h1 : daysBefore y 1 = 0 := rfl
  rw [h1]
  simp [monthLen]
  omega

lemma monthLen2_le (y : Int) : monthLen y 2 ≤ 29 := by
  unfold monthLen
  split
  · split <;> omega
  · omega

lemma doy_le_366 {dt : Date} (h : validDate dt) : dt.doy ≤ 366 := by
  obtain ⟨h1, h2, h3, h4, h5⟩ := h
  have hb : daysBefore dt.y dt.m + dt.d ≤ daysBefore dt.y (dt.m + 1) := by
    rw [daysBefore_succ dt.y dt.m h1]; omega
  have hm : daysBefore dt.y (dt.m + 1) ≤ daysBefore dt.y 13 :=
    daysBefore_mono dt.y (by omega)
  have h13 := daysBefore_13 dt.y
  have h2l := monthLen2_le dt.y
  omega

lemma doy_pos {dt : Date} (h : validDate dt) : 1 ≤ dt.doy := by
  obtain ⟨h1, h2, h3, h4, h5⟩ := h
  omega

lemma m_le_12 {dt : Date} (h : validDate dt) : 1 ≤ dt.m ∧ dt.m ≤ 12 :=
  ⟨h.1, h.2.1⟩

lemma monthCodeD_le_succDay {dt : Date} (h : validDate dt) :
    monthCodeD dt ≤ monthCodeD (succDay dt) := by
  obtain ⟨h1, h2, h3, h4, h5⟩ := h
  unfold succDay monthCodeD
  split
  · dsimp only; omega
  · split
    · dsimp only; push_cast; omega
    · rename_i hd hm
      dsimp only; push_cast; omega

lemma y_le_succDay (dt : Date) : dt.y ≤ (succDay dt).y := by
  unfold succDay
  split
  · dsimp only; omega
  · split
    · dsimp only; omega
    · dsimp only; omega

lemma doy_succDay_of_y_eq {dt : Date} (hy : (succDay dt).y = dt.y) :
    (succDay dt).doy = dt.doy + 1 := by
  unfold succDay at *
  split
  · dsimp only
  · split
    · dsimp only
    · rename_i hd hm
      rw [if_neg hd, if_neg hm] at hy
      dsimp only at hy
      omega

lemma monthCode_day_mono {a b : Int} (h : a ≤ b) :
    monthCodeD (dateOfDay a) ≤ monthCodeD (dateOfDay b) := by
  refine Int.le_induction (P := fun n => monthCodeD (dateOfDay a) ≤ monthCodeD (dateOfDay n)) ?_ ?_ b h
  · exact le_refl _
  · intro n _ ih
    rw [dateOfDay_step]
    exact le_trans ih (monthCodeD_le_succDay (valid_dateOfDay n))

lemma y_day_mono {a b : Int} (h : a ≤ b) :
    (dateOfDay a).y ≤ (dateOfDay b).y := by
  refine Int.le_induction (P := fun n => (dateOfDay a).y ≤ (dateOfDay n).y) ?_ ?_ b h
  · exact le_refl _
  · intro n _ ih
    rw [dateOfDay_step]
    exact le_trans ih (y_le_succDay (dateOfDay n))

lemma doy_day_mono_same_y {a b : Int} (h : a ≤ b)
    (hy : (dateOfDay a).y = (dateOfDay b).y) :
    (dateOfDay a).doy ≤ (dateOfDay b).doy := by
  have main : ∀ n, a ≤ n → ((dateOfDay n).y = (dateOfDay a).y →
      (dateOfDay a).doy ≤ (dateOfDay n).doy) := by
    refine Int.le_induction (P := fun n => (dateOfDay n).y = (dateOfDay a).y →
        (dateOfDay a).doy ≤ (dateOfDay n).doy) ?_ ?_
    · intro _; exact le_refl _
    · intro k hk ih hyk
      rw [dateOfDay_step] at hyk ⊢
      have hy1 : (dateOfDay a).y ≤ (dateOfDay k).y := y_day_mono hk
      have hy2 : (dateOfDay k).y ≤ (succDay (dateOfDay k)).y := y_le_succDay _
      have heq : (succDay (dateOfDay k)).y = (dateOfDay k).y := by omega
      rw [doy_succDay_of_y_eq heq]
      have := ih (by omega)
      omega
  exact main b h hy.symm

lemma fdiv_mono {a b c : Int} (hc : 0 < c) (h : a ≤ b) : a.fdiv c ≤ b.fdiv c := by
  rw [Int.fdiv_eq_ediv _ (le_of_lt hc), Int.fdiv_eq_ediv _ (le_of_lt hc)]
  exact Int.ediv_le_ediv hc h

lemma weekThursday_mono {a b : Int} (h : a ≤ b) : weekThursday a ≤ weekThursday b := by
  unfold weekThursday
  have := fdiv_mono (by omega : (0:Int) < 7) (by omega : a + 3 ≤ b + 3)
  omega

lemma isoWeekNum_ge_1 (n : Int) : 1 ≤ isoWeekNum n := by
  unfold isoWeekNum
  omega

lemma isoWeekNum_le_53 (n : Int) : isoWeekNum n ≤ 53 := by
  unfold isoWeekNum
  have h366 := doy_le_366 (valid_dateOfDay (weekThursday n))
  have : ((dateOfDay (weekThursday n)).doy - 1) / 7 ≤ 365 / 7 :=
    Nat.div_le_div_right (by omega)
  omega

lemma isoCode_mono {a b : Int} (h : a ≤ b) : isoCode a ≤ isoCode b := by
  unfold isoCode
  have hth := weekThursday_mono h
  have hy : isoYear a ≤ isoYear b := y_day_mono hth
  rcases lt_or_eq_of_le hy with hlt | heq
  · have w1 := isoWeekNum_le_53 a
    have w2 := isoWeekNum_ge_1 b
    omega
  · unfold isoYear at heq
    have hdoy : (dateOfDay (weekThursday a)).doy ≤ (dateOfDay (weekThursday b)).doy :=
      doy_day_mono_same_y hth heq
    have hw : isoWeekNum a ≤ isoWeekNum b := by
      unfold isoWeekNum
      have hdd : ((dateOfDay (weekThursday a)).doy - 1) / 7 ≤
          ((dateOfDay (weekThursday b)).doy - 1) / 7 :=
        Nat.div_le_div_right (by omega)
      omega
    unfold isoYear
    omega

lemma tsMonthLabel_mono {a b : Int} (h : a ≤ b) : tsMonthLabel a ≤ tsMonthLabel b :=
  monthCode_day_mono (fdiv_mono (by omega) h)

lemma tsWeekLabel_mono {a b : Int} (h : a ≤ b) : tsWeekLabel a ≤ tsWeekLabel b :=
  isoCode_mono (fdiv_mono (by omega) h)

lemma minAux_le (l : List Int) : ∀ a : Int, minAux a l ≤ a := by
  induction l with
  | nil => intro a; exact le_refl a
  | cons x xs ih =>
      intro a
      exact le_trans (ih (min a x)) (min_le_left a x)

lemma minAux_le_mem (l : List Int) : ∀ (a x : Int), x ∈ l → minAux a l ≤ x := by
  induction l with
  | nil => intro a x hx; cases hx
  | cons y ys ih =>
      intro a x hx
      rcases List.mem_cons.mp hx with h | h
      · subst h
        exact le_trans (minAux_le ys (min a x)) (min_le_right a x)
      · exact ih (min a y) x h

lemma minAux_mem (l : List Int) : ∀ a : Int, minAux a l = a ∨ minAux a l ∈ l := by
  induction l with
  | nil => intro a; exact Or.inl rfl
  | cons x xs ih =>
      intro a
      have hdef : minAux a (x :: xs) = minAux (min a x) xs := rfl
      rcases ih (min a x) with h | h
      · rcases min_choice a x with hc | hc
        · exact Or.inl (by rw [hdef, h, hc])
        · exact Or.inr (by rw [hdef, h, hc]; exact List.mem_cons_self x xs)
      · exact Or.inr (by rw [hdef]; exact List.mem_cons_of_mem x h)

lemma le_maxAux (l : List Int) : ∀ a : Int, a ≤ maxAux a l := by
  induction l with
  | nil => intro a; exact le_refl a
  | cons x xs ih =>
      intro a
      exact le_trans (le_max_left a x) (ih (max a x))

lemma mem_le_maxAux (l : List Int) : ∀ (a x : Int), x ∈ l → x ≤ maxAux a l := by
  induction l with
  | nil => intro a x hx; cases hx
  | cons y ys ih =>
      intro a x hx
      rcases List.mem_cons.mp hx with h | h
      · subst h
        exact le_trans (le_max_right a x) (le_maxAux ys (max a x))
      · exact ih (max a y) x h

lemma maxAux_mem (l : List Int) : ∀ a : Int, maxAux a l = a ∨ maxAux a l ∈ l := by
  induction l with
  | nil => intro a; exact Or.inl rfl
  | cons x xs ih =>
      intro a
      have hdef : maxAux a (x :: xs) = maxAux (max a x) xs := rfl
      rcases ih (max a x) with h | h
      · rcases max_choice a x with hc | hc
        · exact Or.inl (by rw [hdef, h, hc])
        · exact Or.inr (by rw [hdef, h, hc]; exact List.mem_cons_self x xs)
      · exact Or.inr (by rw [hdef]; exact List.mem_cons_of_mem x h)

lemma winOf_label (f : Int → Int) (tss : List Int) (l : Int) :
    (winOf f tss l).label = l := by
  unfold winOf
  split <;> rfl

lemma mem_group_of_label {f : Int → Int} {tss : List Int} {t : Int}
    (ht : t ∈ tss) : t ∈ tss.filter (fun s => f s = f t) := by
  refine List.mem_filter.mpr ⟨ht, ?_⟩
  simp

lemma winOf_bounds {f : Int → Int} {tss : List Int} {t : Int} (ht : t ∈ tss) :
    (winOf f tss (f t)).windowMinTs ≤ t ∧ t ≤ (winOf f tss (f t)).windowEndTs := by
  have hmem : t ∈ tss.filter (fun s => f s = f t) := mem_group_of_label ht
  unfold winOf
  split
  · rename_i heq
    rw [heq] at hmem
    cases hmem
  · rename_i a rest heq
    rw [heq] at hmem
    dsimp only
    rcases List.mem_cons.mp hmem with h | h
    · subst h
      exact ⟨minAux_le rest t, le_maxAux rest t⟩
    · exact ⟨minAux_le_mem rest a t h, mem_le_maxAux rest a t h⟩

lemma winOf_min_label {f : Int → Int} {tss : List Int} {l : Int}
    (hne : tss.filter (fun s => f s = l) ≠ []) :
    f (winOf f tss l).windowMinTs = l := by
  unfold winOf
  split
  · rename_i heq
    exact absurd heq hne
  · rename_i a rest heq
    dsimp only
    have hmem : minAux a rest ∈ tss.filter (fun s => f s = l) := by
      rw [heq]
      rcases minAux_mem rest a with h | h
      · rw [h]; exact List.mem_cons_self a rest
      · exact List.mem_cons_of_mem a h
    have := (List.mem_filter.mp hmem).2
    exact of_decide_eq_true this

lemma winOf_max_label {f : Int → Int} {tss : List Int} {l : Int}
    (hne : tss.filter (fun s => f s = l) ≠ []) :
    f (winOf f tss l).windowEndTs = l := by
  unfold winOf
  split
  · rename_i heq
    exact absurd heq hne
  · rename_i a rest heq
    dsimp only
    have hmem : maxAux a rest ∈ tss.filter (fun s => f s = l) := by
      rw [heq]
      rcases maxAux_mem rest a with h | h
      · rw [h]; exact List.mem_cons_self a rest
      · exact List.mem_cons_of_mem a h
    have := (List.mem_filter.mp hmem).2
    exact of_decide_eq_true this

lemma group_ne_nil_of_mem_dedup {f : Int → Int} {tss : List Int} {l : Int}
    (hl : l ∈ (tss.map f).dedup) : tss.filter (fun s => f s = l) ≠ [] := by
  rcases List.mem_map.mp (List.mem_dedup.mp hl) with ⟨t, ht, hft⟩
  intro hcon
  have : t ∈ tss.filter (fun s => f s = l) :=
    List.mem_filter.mpr ⟨ht, by simp [hft]⟩
  rw [hcon] at this
  cases this

lemma mem_buildWindowIndexBy {f : Int → Int} {tss : List Int} {w : Window} :
    w ∈ buildWindowIndexBy f tss ↔ ∃ l ∈ (tss.map f).dedup, w = winOf f tss l := by
  unfold buildWindowIndexBy
  constructor
  · intro h
    rcases List.mem_map.mp h with ⟨l, hl, hw⟩
    exact ⟨l, hl, hw.symm⟩
  · rintro ⟨l, hl, rfl⟩
    exact List.mem_map.mpr ⟨l, hl, rfl⟩

/-- Generic partition property of the grouped window index, for any
monotone label function: every timestamp in the input is covered by
exactly one index row, and distinct rows have disjoint ranges. -/
lemma windowIndex_partition (f : Int → Int)
    (hmono : ∀ a b : Int, a ≤ b → f a ≤ f b) (tss : List Int) :
    (∀ t ∈ tss, ∃ w, w ∈ buildWindowIndexBy f tss ∧
        (w.windowMinTs ≤ t ∧ t ≤ w.windowEndTs) ∧
        ∀ w2 ∈ buildWindowIndexBy f tss,
          w2.windowMinTs ≤ t → t ≤ w2.windowEndTs → w2 = w) ∧
    (∀ w1 ∈ buildWindowIndexBy f tss, ∀ w2 ∈ buildWindowIndexBy f tss,
        w1 ≠ w2 → w1.windowEndTs < w2.windowMinTs ∨ w2.windowEndTs < w1.windowMinTs) := by
  have hlabel : ∀ w ∈ buildWindowIndexBy f tss,
      f w.windowMinTs = w.label ∧ f w.windowEndTs = w.label := by
    intro w hw
    rcases mem_buildWindowIndexBy.mp hw with ⟨l, hl, rfl⟩
    have hne := group_ne_nil_of_mem_dedup hl
    rw [winOf_label]
    exact ⟨winOf_min_label hne, winOf_max_label hne⟩
  have hcover_label : ∀ w ∈ buildWindowIndexBy f tss, ∀ t : Int,
      w.windowMinTs ≤ t → t ≤ w.windowEndTs → f t = w.label := by
    intro w hw t h1 h2
    obtain ⟨hminl, hmaxl⟩ := hlabel w hw
    have ha := hmono _ _ h1
    have hb := hmono _ _ h2
    rw [hminl] at ha
    rw [hmaxl] at hb
    omega
  constructor
  · intro t ht
    have hl : f t ∈ (tss.map f).dedup :=
      List.mem_dedup.mpr (List.mem_map.mpr ⟨t, ht, rfl⟩)
    refine ⟨winOf f tss (f t), mem_buildWindowIndexBy.mpr ⟨f t, hl, rfl⟩,
      winOf_bounds ht, ?_⟩
    intro w2 hw2 h1 h2
    have hft := hcover_label w2 hw2 t h1 h2
    rcases mem_buildWindowIndexBy.mp hw2 with ⟨l2, hl2, rfl⟩
    rw [winOf_label] at hft
    rw [hft]
  · intro w1 hw1 w2 hw2 hne
    have hl1 : w1.label ≠ w2.label := by
      intro hcon
      rcases mem_buildWindowIndexBy.mp hw1 with ⟨l1, _, rfl⟩
      rcases mem_buildWindowIndexBy.mp hw2 with ⟨l2, _, rfl⟩
      rw [winOf_label, winOf_label] at hcon
      exact hne (by rw [hcon])
    by_contra hcon
    push_neg at hcon
    obtain ⟨hc1, hc2⟩ := hcon
    obtain ⟨hmin1, hmax1⟩ := hlabel w1 hw1
    obtain ⟨hmin2, hmax2⟩ := hlabel w2 hw2
    rcases le_total w1.windowMinTs w2.windowMinTs with hcmp | hcmp
    · have hin1 : w1.windowMinTs ≤ w2.windowMinTs := hcmp
      have hin2 : w2.windowMinTs ≤ w1.windowEndTs := hc1
      have := hcover_label w1 hw1 w2.windowMinTs hin1 hin2
      rw [hmin2] at this
      exact hl1 this.symm
    · have hin1 : w2.windowMinTs ≤ w1.windowMinTs := hcmp
      have hin2 : w1.windowMinTs ≤ w2.windowEndTs := hc2
      have := hcover_label w2 hw2 w1.windowMinTs hin1 hin2
      rw [hmin1] at this
      exact hl1 this

lemma toLower_toLower (c : Char) : (c.toLower).toLower = c.toLower := by
  unfold Char.toLower
  by_cases h : c.toNat ≥ 65 ∧ c.toNat ≤ 90
  · rw [if_pos h]
    have hv : (c.toNat + 32).isValidChar := Or.inl (by omega)
    have ht : (Char.ofNat (c.toNat + 32)).toNat = c.toNat + 32 := by
      unfold Char.ofNat
      rw [dif_pos hv]
      rfl
    rw [if_neg (by omega : ¬((Char.ofNat (c.toNat + 32)).toNat ≥ 65 ∧
      (Char.ofNat (c.toNat + 32)).toNat ≤ 90))]
  · rw [if_neg h, if_neg h]

lemma toLowerStr_idem (s : String) : toLowerStr (toLowerStr s) = toLowerStr s := by
  unfold toLowerStr
  simp only [List.map_map]
  congr 1
  apply List.map_congr_left
  intro c _
  exact toLower_toLower c

lemma foldl_hash_lt (seed1 seed2 seed3 : Nat) :
    ∀ (l : List Char) (a : Nat), a < 2 ^ 64 →
      l.foldl (fun a c => (a * seed1 + c.toNat * seed2 + seed3) % 2 ^ 64) a < 2 ^ 64 := by
  intro l
  induction l with
  | nil => intro a ha; simpa using ha
  | cons c cs ih =>
      intro a ha
      simp only [List.foldl_cons]
      exact ih _ (Nat.mod_lt _ (by norm_num))

lemma hashSeeded_lt (seed seed1 seed2 seed3 : Nat) (s : String) :
    hashSeeded seed seed1 seed2 seed3 s < 2 ^ 64 := by
  unfold hashSeeded
  exact foldl_hash_lt seed1 seed2 seed3 s.data (seed % 2 ^ 64)
    (Nat.mod_lt _ (by norm_num))

lemma flatten_ne_nil {α : Type} {l : List (List α)} (hl : l ≠ [])
    (h : ∀ c ∈ l, c ≠ []) : l.flatten ≠ [] := by
  obtain ⟨c, hc⟩ := List.exists_mem_of_ne_nil l hl
  obtain ⟨x, hx⟩ := List.exists_mem_of_ne_nil c (h c hc)
  exact List.ne_nil_of_mem (List.mem_flatten.mpr ⟨c, hc, hx⟩)

lemma processWindows_eq (edges : List Edge) (tg : List Nat) :
    ∀ (meta : List Window) (file : Option (List (Int × Nat)))
      (chunks : List (List (Int × Nat))),
      (∀ c ∈ chunks, c ≠ []) →
      processWindows edges tg meta file chunks =
        if chunks.flatten ++ windowTargetRows edges tg meta = [] then file
        else some (file.getD [] ++ (chunks.flatten ++ windowTargetRows edges tg meta)) := by
  intro meta
  induction meta with
  | nil =>
      intro file chunks hne
      show (if chunks = [] then file else mergeFlush file chunks) = _
      unfold windowTargetRows
      simp only [List.map_nil, List.flatten_nil, List.append_nil]
      by_cases hc : chunks = []
      · subst hc
        simp
      · rw [if_neg hc, if_neg (flatten_ne_nil hc hne)]
        rfl
  | cons w rest ih =>
      intro file chunks hne
      have hunf : processWindows edges tg (w :: rest) file chunks =
          (if 50 ≤ (if targetsOfWindow edges tg w = [] then chunks
              else chunks ++ [targetsOfWindow edges tg w]).length then
            processWindows edges tg rest
              (mergeFlush file (if targetsOfWindow edges tg w = [] then chunks
                else chunks ++ [targetsOfWindow edges tg w])) []
          else processWindows edges tg rest file
            (if targetsOfWindow edges tg w = [] then chunks
              else chunks ++ [targetsOfWindow edges tg w])) := rfl
      have hrowseq : windowTargetRows edges tg (w :: rest) =
          targetsOfWindow edges tg w ++ windowTargetRows edges tg rest := by
        unfold windowTargetRows
        simp
      rw [hunf, hrowseq]
      by_cases hr : targetsOfWindow edges tg w = []
      · simp only [hr, if_true, List.nil_append, ite_true]
        by_cases hflush : 50 ≤ chunks.length
        · rw [if_pos hflush]
          rw [ih (mergeFlush file chunks) [] (by intro c hc; cases hc)]
          have hcne : chunks ≠ [] := by
            intro hcon; rw [hcon] at hflush; simp at hflush
          have hfne : chunks.flatten ≠ [] := flatten_ne_nil hcne hne
          unfold mergeFlush
          simp only [List.flatten_nil, List.nil_append, Option.getD_some]
          by_cases hrest : windowTargetRows edges tg rest = []
          · rw [if_pos hrest, hrest, List.append_nil, if_neg hfne]
          · rw [if_neg hrest, if_neg (by simp [hrest])]
            rw [List.append_assoc]
        · rw [if_neg hflush]
          exact ih file chunks hne
      · rw [if_neg hr]
        have hne1 : ∀ c ∈ chunks ++ [targetsOfWindow edges tg w], c ≠ [] := by
          intro c hc
          rcases List.mem_append.mp hc with h | h
          · exact hne c h
          · rcases List.mem_singleton.mp h with rfl
            exact hr
        have hflatten1 : (chunks ++ [targetsOfWindow edges tg w]).flatten =
            chunks.flatten ++ targetsOfWindow edges tg w := by
          simp
        by_cases hflush : 50 ≤ (chunks ++ [targetsOfWindow edges tg w]).length
        · rw [if_pos hflush]
          rw [ih (mergeFlush file (chunks ++ [targetsOfWindow edges tg w])) []
            (by intro c hc; cases hc)]
          unfold mergeFlush
          rw [hflatten1]
          simp only [List.flatten_nil, List.nil_append, Option.getD_some]
          by_cases hrest : windowTargetRows edges tg rest = []
          · rw [if_pos hrest, hrest, List.append_nil, if_neg (by simp [hr])]
          · rw [if_neg hrest, if_neg (by simp [hrest])]
            simp [List.append_assoc]
        · rw [if_neg hflush]
          rw [ih file (chunks ++ [targetsOfWindow edges tg w]) hne1]
          rw [hflatten1, List.append_assoc]

lemma exportStep_preserves {edges : List Edge} {fs : Int → Option (List Edge)}
    {w : Window} {l : Int} {c : List Edge} (h : fs l = some c) :
    exportStep edges fs w l = some c := by
  unfold exportStep
  cases hfs : fs w.label with
  | some d => exact h
  | none =>
      dsimp only
      by_cases hl : l = w.label
      · rw [hl] at h; rw [h] at hfs; cases hfs
      · rw [if_neg hl]; exact h

lemma exportStep_skip {edges : List Edge} {fs : Int → Option (List Edge)}
    {w : Window} (h : (fs w.label).isSome) : exportStep edges fs w = fs := by
  unfold exportStep
  cases hfs : fs w.label with
  | some d => rfl
  | none => rw [hfs] at h; cases h

lemma export_preserves (edges : List Edge) :
    ∀ (meta : List Window) (fs : Int → Option (List Edge)) (l : Int) (c : List Edge),
      fs l = some c → export_windows edges meta fs l = some c := by
  intro meta
  induction meta with
  | nil => intro fs l c h; exact h
  | cons w rest ih =>
      intro fs l c h
      exact ih (exportStep edges fs w) l c (exportStep_preserves h)

lemma export_isSome_of_mem (edges : List Edge) :
    ∀ (meta : List Window) (fs : Int → Option (List Edge)) (w : Window),
      w ∈ meta → (export_windows edges meta fs w.label).isSome := by
  intro meta
  induction meta with
  | nil => intro fs w hw; cases hw
  | cons w0 rest ih =>
      intro fs w hw
      rcases List.mem_cons.mp hw with rfl | hmem
      · have hsome : (exportStep edges fs w w.label).isSome := by
          unfold exportStep
          cases hfs : fs w.label with
          | some d => dsimp only; rw [hfs]; rfl
          | none =>
              dsimp only
              rw [if_pos rfl]
              rfl
        obtain ⟨c, hc⟩ := Option.isSome_iff_exists.mp hsome
        show (export_windows edges rest (exportStep edges fs w) w.label).isSome
        rw [export_preserves edges rest _ _ _ hc]
        rfl
      · exact ih (exportStep edges fs w0) w hmem

lemma export_skip_all (edges : List Edge) :
    ∀ (meta : List Window) (fs : Int → Option (List Edge)),
      (∀ w ∈ meta, (fs w.label).isSome) → export_windows edges meta fs = fs := by
  intro meta
  induction meta with
  | nil => intro fs _; rfl
  | cons w rest ih =>
      intro fs h
      show export_windows edges rest (exportStep edges fs w) = fs
      rw [exportStep_skip (h w (List.mem_cons_self w rest))]
      exact ih fs (fun w2 hw2 => h w2 (List.mem_cons_of_mem w hw2))

lemma digitChar_isDigit {n : Nat} (h : n < 10) : (digitChar n).isDigit = true := by
  interval_cases n <;> decide

lemma digitVal_digitChar {n : Nat} (h : n < 10) : digitVal (digitChar n) = n := by
  interval_cases n <;> decide

lemma isDigit_ne_dot {c : Char} (h : c.isDigit = true) : c ≠ '.' := by
  intro hc
  subst hc
  exact absurd h (by decide)

lemma isDigit_ne_dash {c : Char} (h : c.isDigit = true) : c ≠ '-' := by
  intro hc
  subst hc
  exact absurd h (by decide)

lemma digitsVal_singleton (c : Char) : digitsVal [c] = digitVal c := by
  unfold digitsVal
  simp

lemma foldl_digits (l : List Char) : ∀ a : Nat,
    l.foldl (fun a c => 10 * a + digitVal c) a = a * 10 ^ l.length + digitsVal l := by
  induction l with
  | nil => intro a; simp [digitsVal]
  | cons c cs ih =>
      intro a
      have hv : digitsVal (c :: cs) = digitVal c * 10 ^ cs.length + digitsVal cs := by
        show List.foldl (fun a c => 10 * a + digitVal c) 0 (c :: cs) = _
        rw [List.foldl_cons, ih (10 * 0 + digitVal c)]
        have hz : 10 * 0 + digitVal c = digitVal c := by omega
        rw [hz]
      simp only [List.foldl_cons]
      rw [ih (10 * a + digitVal c), hv, List.length_cons, pow_succ]
      ring

lemma digitsVal_append (l1 l2 : List Char) :
    digitsVal (l1 ++ l2) = digitsVal l1 * 10 ^ l2.length + digitsVal l2 := by
  unfold digitsVal
  rw [List.foldl_append]
  rw [foldl_digits l2]
  rfl

lemma digitsVal_replicate_zero (k : Nat) : digitsVal (List.replicate k '0') = 0 := by
  induction k with
  | zero => rfl
  | succ j ih =>
      rw [List.replicate_succ]
      unfold digitsVal at *
      simp only [List.foldl_cons]
      have hz : (10 * 0 + digitVal '0') = 0 := rfl
      rw [hz]
      exact ih

lemma natDigitsAux_spec : ∀ (fuel n : Nat), n < fuel →
    digitsVal (natDigitsAux fuel n) = n ∧ natDigitsAux fuel n ≠ [] ∧
      (natDigitsAux fuel n).all Char.isDigit = true := by
  intro fuel
  induction fuel with
  | zero => intro n h; omega
  | succ f ih =>
      intro n h
      have hstep : natDigitsAux (f + 1) n =
          if n < 10 then [digitChar n]
          else natDigitsAux f (n / 10) ++ [digitChar (n % 10)] := rfl
      rw [hstep]
      by_cases h10 : n < 10
      · rw [if_pos h10]
        refine ⟨?_, by simp, ?_⟩
        · rw [digitsVal_singleton, digitVal_digitChar h10]
        · simp [digitChar_isDigit h10]
      · rw [if_neg h10]
        have hlt : n / 10 < n := Nat.div_lt_self (by omega) (by omega)
        obtain ⟨hv, hn, hd⟩ := ih (n / 10) (by omega)
        refine ⟨?_, by simp, ?_⟩
        · rw [digitsVal_append, hv, digitsVal_singleton,
            digitVal_digitChar (Nat.mod_lt n (by omega))]
          simp only [List.length_singleton, pow_one]
          omega
        · rw [List.all_append, hd]
          simp [digitChar_isDigit (Nat.mod_lt n (by omega))]

lemma natDigits_spec (n : Nat) :
    digitsVal (natDigits n) = n ∧ natDigits n ≠ [] ∧
      (natDigits n).all Char.isDigit = true :=
  natDigitsAux_spec (n + 1) n (by omega)

lemma natDigitsAux_length : ∀ (fuel n k : Nat), n < fuel → 1 ≤ k → n < 10 ^ k →
    (natDigitsAux fuel n).length ≤ k := by
  intro fuel
  induction fuel with
  | zero => intro n k h; omega
  | succ f ih =>
      intro n k h hk hnk
      have hstep : natDigitsAux (f + 1) n =
          if n < 10 then [digitChar n]
          else natDigitsAux f (n / 10) ++ [digitChar (n % 10)] := rfl
      rw [hstep]
      by_cases h10 : n < 10
      · rw [if_pos h10]; simpa using hk
      · rw [if_neg h10]
        have hk2 : 2 ≤ k := by
          by_contra hcon
          have hk1 : k = 1 := by omega
          rw [hk1, pow_one] at hnk
          omega
        have hlt : n / 10 < n := Nat.div_lt_self (by omega) (by omega)
        have hdiv : n / 10 < 10 ^ (k - 1) := by
          rw [Nat.div_lt_iff_lt_mul (by omega : (0:Nat) < 10)]
          have hpow : 10 ^ (k - 1) * 10 = 10 ^ k := by
            rw [← pow_succ]
            congr 1
            omega
          omega
        have := ih (n / 10) (k - 1) (by omega) (by omega) hdiv
        simp only [List.length_append, List.length_singleton]
        omega

lemma natDigits_length {n k : Nat} (hk : 1 ≤ k) (h : n < 10 ^ k) :
    (natDigits n).length ≤ k :=
  natDigitsAux_length (n + 1) n k (by omega) hk h

lemma splitAtDot_append {l1 l2 : List Char} (h : ∀ c ∈ l1, c ≠ '.') :
    splitAtDot (l1 ++ '.' :: l2) = (l1, some l2) := by
  induction l1 with
  | nil => simp [splitAtDot]
  | cons c cs ih =>
      have hc : c ≠ '.' := h c (List.mem_cons_self c cs)
      have ihr := ih (fun x hx => h x (List.mem_cons_of_mem c hx))
      show splitAtDot (c :: (cs ++ '.' :: l2)) = _
      unfold splitAtDot
      rw [if_neg hc, ihr]

lemma all_digits_replicate_append {k : Nat} {l : List Char}
    (hl : l.all Char.isDigit = true) :
    (List.replicate k '0' ++ l).all Char.isDigit = true := by
  rw [List.all_append, hl]
  simp [List.all_eq_true]

lemma parseUnsignedDec_render (ipn fpn : Nat) (hfp : fpn < 10 ^ 9) :
    parseUnsignedDec (natDigits ipn ++ '.' ::
      (List.replicate (9 - (natDigits fpn).length) '0' ++ natDigits fpn)) =
    some (ipn * 10 ^ 9 + fpn) := by
  obtain ⟨hv1, hn1, hd1⟩ := natDigits_spec ipn
  obtain ⟨hv2, hn2, hd2⟩ := natDigits_spec fpn
  have hlen : (natDigits fpn).length ≤ 9 := natDigits_length (by omega) hfp
  set P := List.replicate (9 - (natDigits fpn).length) '0' ++ natDigits fpn with hP
  have hPlen : P.length = 9 := by
    rw [hP, List.length_append, List.length_replicate]
    omega
  have hPd : P.all Char.isDigit = true := all_digits_replicate_append hd2
  have hPval : digitsVal P = fpn := by
    rw [hP, digitsVal_append, digitsVal_replicate_zero, hv2]
    ring
  have hnodot : ∀ c ∈ natDigits ipn, c ≠ '.' := by
    intro c hc
    exact isDigit_ne_dot (List.all_eq_true.mp hd1 c hc)
  have hsplit := @splitAtDot_append (natDigits ipn) P hnodot
  unfold parseUnsignedDec
  rw [hsplit]
  dsimp only
  rw [if_pos ⟨hn1, hd1, by
      intro hcon
      rw [hcon] at hPlen
      simp at hPlen, by omega, hPd⟩]
  rw [hv1, hPval, hPlen]
  simp

lemma parseDec_renderDec (v : Int) : parseDec (renderDec v) = some v := by
  obtain ⟨hv1, hn1, hd1⟩ := natDigits_spec (v.natAbs / 10 ^ 9)
  have hmod : v.natAbs % 10 ^ 9 < 10 ^ 9 := Nat.mod_lt _ (by norm_num)
  have hmain := parseUnsignedDec_render (v.natAbs / 10 ^ 9) (v.natAbs % 10 ^ 9) hmod
  have hdm : v.natAbs / 10 ^ 9 * 10 ^ 9 + v.natAbs % 10 ^ 9 = v.natAbs := by
    rw [Nat.mul_comm (v.natAbs / 10 ^ 9) (10 ^ 9)]
    exact Nat.div_add_mod v.natAbs (10 ^ 9)
  rw [hdm] at hmain
  obtain ⟨c, cs, hcons⟩ := List.exists_cons_of_ne_nil hn1
  have hcd : c.isDigit = true := by
    have := List.all_eq_true.mp hd1 c (by rw [hcons]; exact List.mem_cons_self c cs)
    exact this
  by_cases hneg : v < 0
  · have hdata : (renderDec v).data = '-' :: (natDigits (v.natAbs / 10 ^ 9) ++
        '.' :: (List.replicate (9 - (natDigits (v.natAbs % 10 ^ 9)).length) '0' ++
          natDigits (v.natAbs % 10 ^ 9))) := by
      unfold renderDec
      rw [if_pos hneg]
      rfl
    unfold parseDec
    rw [hdata]
    rw [List.head?_cons]
    rw [if_pos rfl]
    rw [List.tail_cons, hmain]
    have hred : Option.map (fun n : Nat => -(n : Int)) (some v.natAbs) =
        some (-(v.natAbs : Int)) := rfl
    rw [hred]
    congr 1
    omega
  · have hdata : (renderDec v).data = natDigits (v.natAbs / 10 ^ 9) ++
        '.' :: (List.replicate (9 - (natDigits (v.natAbs % 10 ^ 9)).length) '0' ++
          natDigits (v.natAbs % 10 ^ 9)) := by
      unfold renderDec
      rw [if_neg hneg]
      rfl
    unfold parseDec
    rw [hdata, hcons, List.cons_append, List.head?_cons]
    rw [if_neg (by
      simp only [Option.some.injEq]
      exact isDigit_ne_dash hcd)]
    rw [← List.cons_append, ← hcons, hmain]
    have hred : Option.map (fun n : Nat => (n : Int)) (some v.natAbs) =
        some ((v.natAbs : Int)) := rfl
    rw [hred]
    congr 1
    omega

/-- Claim C3: identity assignment is deterministic and case-normalizing:
for every address string, assign(key) = assign(lowercase(key)); the
labels/mapping stage and both endpoint columns of the edge materializer
compute the same assignment under the fixed seed tuple
(seed=20250823, seed_1=17, seed_2=31, seed_3=73); and the id fits in a
uint64.  Determinism across runs is purity: the assignment is a function
of the key and the seeds alone. -/
theorem c3_identity_assignment_deterministic :
    (∀ key : String, labelsNodeId key = labelsNodeId (toLowerStr key)) ∧
    (∀ key : String, edgeSrcId key = labelsNodeId key ∧
      edgeDstId key = labelsNodeId key) ∧
    (∀ key : String, labelsNodeId key < 2 ^ 64) := by
  refine ⟨?_, ?_, ?_⟩
  · intro key
    unfold labelsNodeId
    rw [toLowerStr_idem]
  · intro key
    exact ⟨rfl, rfl⟩
  · intro key
    exact hashSeeded_lt _ _ _ _ _

/-- Claim C8: cross-component label agreement: for any calendar day and
any edge timestamp falling inside that day, the week (%G-W%V) and month
(%Y-%m) labels the Window Indexer derives from the timestamp equal the
labels the rollup pipeline attaches to the day. -/
theorem c8_cross_component_label_agreement (day ts : Int)
    (h1 : 86400 * day ≤ ts) (h2 : ts < 86400 * (day + 1)) :
    tsWeekLabel ts = dayWeekLabel day ∧ tsMonthLabel ts = dayMonthLabel day := by
  have hq : tsDay ts = day := by
    unfold tsDay
    rw [Int.fdiv_eq_ediv _ (by omega : (0:Int) ≤ 86400)]
    have hle : day ≤ ts / 86400 := by
      rw [Int.le_ediv_iff_mul_le (by omega : (0:Int) < 86400)]
      omega
    have hlt : ts / 86400 < day + 1 := by
      rw [Int.ediv_lt_iff_lt_mul (by omega : (0:Int) < 86400)]
      omega
    omega
  constructor
  · unfold tsWeekLabel dayWeekLabel
    rw [hq]
  · unfold tsMonthLabel dayMonthLabel
    rw [hq]

/-- Witness for C8: timestamp 123456 lies in day 1 (1970-01-02); the two
label computations agree there. -/
theorem c8_witness :
    tsWeekLabel 123456 = dayWeekLabel 1 ∧ tsMonthLabel 123456 = dayMonthLabel 1 :=
  c8_cross_component_label_agreement 1 123456 (by norm_num) (by norm_num)

/-- Claim C4: partition completeness of the window index: for each
granularity (month via "%Y-%m", week via "%G-W%V"), every timestamp of
the canonical edge table lies in the [window_min_ts, window_end_ts] range
of exactly one row of build_window_index's output, and the ranges of
distinct windows of the same granularity never overlap. -/
theorem c4_window_partition_completeness (edges : List Edge)
    (f : Int → Int) (idx : List Window)
    (hgran : (f = tsMonthLabel ∧ idx = month_window_meta edges) ∨
      (f = tsWeekLabel ∧ idx = week_window_meta edges)) :
    (∀ e ∈ edges, ∃ w, w ∈ idx ∧
        (w.windowMinTs ≤ e.ts ∧ e.ts ≤ w.windowEndTs) ∧
        ∀ w2 ∈ idx, w2.windowMinTs ≤ e.ts → e.ts ≤ w2.windowEndTs → w2 = w) ∧
    (∀ w1 ∈ idx, ∀ w2 ∈ idx, w1 ≠ w2 →
        w1.windowEndTs < w2.windowMinTs ∨ w2.windowEndTs < w1.windowMinTs) := by
  rcases hgran with ⟨hf, hidx⟩ | ⟨hf, hidx⟩
  · subst hf
    subst hidx
    unfold month_window_meta
    obtain ⟨hcov, hdisj⟩ := windowIndex_partition tsMonthLabel
      (fun a b h => tsMonthLabel_mono h) (edges.map Edge.ts)
    exact ⟨fun e he => hcov e.ts (List.mem_map_of_mem Edge.ts he), hdisj⟩
  · subst hf
    subst hidx
    unfold week_window_meta
    obtain ⟨hcov, hdisj⟩ := windowIndex_partition tsWeekLabel
      (fun a b h => tsWeekLabel_mono h) (edges.map Edge.ts)
    exact ⟨fun e he => hcov e.ts (List.mem_map_of_mem Edge.ts he), hdisj⟩

/-- Witness for C4 at a concrete edge table spanning two months
(1970-01 and 1970-02): the two month windows of the index have disjoint
ts ranges. -/
theorem c4_witness :
    (⟨23641, 100000, 100000, 1⟩ : Window).windowEndTs <
        (⟨23642, 3000000, 3000000, 1⟩ : Window).windowMinTs ∨
      (⟨23642, 3000000, 3000000, 1⟩ : Window).windowEndTs <
        (⟨23641, 100000, 100000, 1⟩ : Window).windowMinTs :=
  (c4_window_partition_completeness [sampleEdgeA, sampleEdgeB] tsMonthLabel
      (month_window_meta [sampleEdgeA, sampleEdgeB]) (Or.inl ⟨rfl, rfl⟩)).2
    ⟨23641, 100000, 100000, 1⟩ (by decide) ⟨23642, 3000000, 3000000, 1⟩
    (by decide) (by decide)

/-- Claim C1 (amended): the enrichment stage's targets output is a
merge-append, not idempotent.  One pass appends every derived
(window_label, node_id) row to whatever the targets file already holds --
each flush leaves a complete, valid table equal to the previous content
followed by the batch -- so running the stage twice with unchanged
sources appends a full duplicate of the single-run rows instead of
reproducing the single-run state. -/
theorem c1_enrich_merge_append (edges : List Edge) (tg : List Nat)
    (meta : List Window) (file : Option (List (Int × Nat))) :
    enrichTargets edges tg meta file =
      (if windowTargetRows edges tg meta = [] then file
        else some (file.getD [] ++ windowTargetRows edges tg meta)) ∧
    enrichTargets edges tg meta (enrichTargets edges tg meta none) =
      (if windowTargetRows edges tg meta = [] then none
        else some (windowTargetRows edges tg meta ++ windowTargetRows edges tg meta)) := by
  have hchar : ∀ f : Option (List (Int × Nat)), enrichTargets edges tg meta f =
      if windowTargetRows edges tg meta = [] then f
      else some (f.getD [] ++ windowTargetRows edges tg meta) := by
    intro f
    unfold enrichTargets
    rw [processWindows_eq edges tg meta f [] (by intro c hc; cases hc)]
    simp
  refine ⟨hchar file, ?_⟩
  rw [hchar (enrichTargets edges tg meta none), hchar none]
  by_cases hR : windowTargetRows edges tg meta = [] <;> simp [hR]

/-- Counterexample to claim C1 as stated: one window, one edge in its
range, one labelled participant -- the second enrichment run merges a
duplicate (window_label, node_id) row onto the existing targets table, so
run-twice differs from run-once. -/
theorem c1_counterexample :
    enrichTargets [⟨1, 2, 5, "1", "0", 0, false, "t"⟩] [1] [⟨0, 0, 10, 1⟩]
        (enrichTargets [⟨1, 2, 5, "1", "0", 0, false, "t"⟩] [1] [⟨0, 0, 10, 1⟩] none) ≠
      enrichTargets [⟨1, 2, 5, "1", "0", 0, false, "t"⟩] [1] [⟨0, 0, 10, 1⟩] none := by
  decide

/-- Claim C6: target subset law: every (window_label, node_id) row the
enrichment derives has its node both among the distinct src/dst
participants of the edges inside that window's [ts_min, ts_max] range and
in the global Label table. -/
theorem c6_target_subset_law (edges : List Edge) (targetsGlobal : List LabelRow)
    (meta : List Window) (hnd : (meta.map Window.label).Nodup) :
    ∀ p ∈ windowTargetRows edges (tgIds targetsGlobal) meta,
      ∀ w ∈ meta, w.label = p.1 →
        p.2 ∈ windowNodes edges w.windowMinTs w.windowEndTs ∧
        p.2 ∈ targetsGlobal.map LabelRow.nodeId := by
  intro p hp w hw hlab
  rcases List.mem_flatten.mp hp with ⟨rows, hrows, hprows⟩
  rcases List.mem_map.mp hrows with ⟨w2, hw2, rfl⟩
  unfold targetsOfWindow at hprows
  rcases List.mem_map.mp hprows with ⟨n, hn, hpn⟩
  have hfil := List.mem_filter.mp hn
  have hmem1 : n ∈ windowNodes edges w2.windowMinTs w2.windowEndTs := hfil.1
  have hintg : n ∈ tgIds targetsGlobal := of_decide_eq_true hfil.2
  have hp1 : p.1 = w2.label := by rw [← hpn]
  have hp2 : p.2 = n := by rw [← hpn]
  have hww : w = w2 := List.inj_on_of_nodup_map hnd hw hw2 (by rw [hlab, hp1])
  subst hww
  constructor
  · rw [hp2]
    exact hmem1
  · rw [hp2]
    unfold tgIds at hintg
    exact List.mem_dedup.mp hintg

/-- Witness for C6: the single derived row (7, 1) of a one-window,
one-edge, one-label instance is a participant of the window and a row of
the label table. -/
theorem c6_witness :
    ((7, 1) : Int × Nat).2 ∈
        windowNodes [⟨1, 2, 5, "1", "0", 0, false, "t"⟩]
          (⟨7, 0, 10, 1⟩ : Window).windowMinTs (⟨7, 0, 10, 1⟩ : Window).windowEndTs ∧
      ((7, 1) : Int × Nat).2 ∈
        ([⟨1, 0, 0, "b"⟩] : List LabelRow).map LabelRow.nodeId :=
  c6_target_subset_law [⟨1, 2, 5, "1", "0", 0, false, "t"⟩] [⟨1, 0, 0, "b"⟩]
    [⟨7, 0, 10, 1⟩] (by decide) (7, 1) (by decide) ⟨7, 0, 10, 1⟩ (by decide) rfl

/-- Claim C7: window export is idempotent by existence check: an existing
partition file is never rewritten (its content is preserved), and running
export_windows on the state a first run produced changes nothing. -/
theorem c7_export_idempotent (edges : List Edge) (meta : List Window)
    (fs : Int → Option (List Edge)) :
    (∀ l c, fs l = some c → export_windows edges meta fs l = some c) ∧
    export_windows edges meta (export_windows edges meta fs) =
      export_windows edges meta fs := by
  refine ⟨fun l c h => export_preserves edges meta fs l c h, ?_⟩
  apply export_skip_all
  intro w hw
  exact export_isSome_of_mem edges meta fs w hw

/-- Claim C9: missing-input fatality with no output: an empty raw
transaction glob makes build_edges_all raise before the canonical edge
table is written, and the rollup pipeline aborts before writing any
output when labels/mapping are absent or its daily glob is empty. -/
theorem c9_missing_input_fatal :
    (∀ st : GnnFiles,
      build_edges_all [] =
        Except.error "no input transactions found in source directory" ∧
      runBuildEdgesAll [] st = st) ∧
    (∀ (b : Bool) (d : List (List DailyRaw)) (am : List (String × Nat))
        (wl ml : List Int) (st : LstmFiles),
      lstm_input_checks false b d =
        Except.error "labels or mapping not found in gnn_dataset" ∧
      lstm_input_checks b false d =
        Except.error "labels or mapping not found in gnn_dataset" ∧
      lstm_input_checks true true [] =
        Except.error "no daily parquet inputs found" ∧
      runLstmRollup false b d am wl ml st = st ∧
      runLstmRollup b false d am wl ml st = st ∧
      runLstmRollup true true [] am wl ml st = st) := by
  constructor
  · intro st
    exact ⟨rfl, rfl⟩
  · intro b d am wl ml st
    cases b <;> exact ⟨rfl, rfl, rfl, rfl, rfl, rfl⟩

/-- Claim C5: decimal fidelity of monetary aggregation: summing
"1.000000001" and "2.000000002" through the weekly (sum_dec_str) or
monthly (sum_dec_str_m) aggregate yields exactly "3.000000003", and in
general the text both aggregates emit parses back to the exact
Decimal(38,9) sum of the parsed inputs -- no lossy numeric path. -/
theorem c5_decimal_fidelity :
    sum_dec_str ["1.000000001", "2.000000002"] = "3.000000003" ∧
    sum_dec_str_m ["1.000000001", "2.000000002"] = "3.000000003" ∧
    ∀ xs : List String,
      parseDec (sum_dec_str xs) = some ((xs.map decVal).sum) ∧
      parseDec (sum_dec_str_m xs) = some ((xs.map decVal).sum) := by
  refine ⟨by decide, by decide, ?_⟩
  intro xs
  exact ⟨parseDec_renderDec _, parseDec_renderDec _⟩

/-- Claim C2 (amended): the week → month lookup built by
week_month_map assigns a week label to every month label it co-occurs
with in the daily rows.  A week whose observed days all carry one month
label is therefore assigned to exactly that month; but a week whose days
span a calendar-month boundary appears in the lookup under both months,
and its full weekly aggregate enters both months' output rows (see the
counterexample). -/
theorem c2_week_month_assignment (daily : List DailyRow) (w m0 : Int)
    (hsingle : ∀ r ∈ daily, dayWeekLabel r.day = w → dayMonthLabel r.day = m0) :
    ∀ p ∈ week_month_map daily, p.1 = w → p.2 = m0 := by
  intro p hp hw
  rcases List.mem_map.mp (List.mem_dedup.mp hp) with ⟨r, hr, hpr⟩
  have h1 : dayWeekLabel r.day = p.1 := by rw [← hpr]
  have h2 : dayMonthLabel r.day = p.2 := by rw [← hpr]
  rw [← h2]
  exact hsingle r hr (by rw [h1, hw])

/-- Witness for C2 (amended) at a one-day table: day 5 (1970-01-06) lies
in ISO week 1970-W02 (code 197002) and January (code 23641); the lookup
pair of that week maps to January. -/
theorem c2_witness :
    (((197002 : Int), (23641 : Int)) : Int × Int).2 = 23641 :=
  c2_week_month_assignment [⟨1, 5, 3⟩] 197002 23641 (by decide)
    (197002, 23641) (by decide) (by decide)

/-- Counterexample to claim C2 as stated: days 30 (1970-01-31, Saturday)
and 31 (1970-02-01, Sunday) share ISO week 1970-W05 (code 197005) but
carry different month labels (codes 23641 and 23642), so the lookup
assigns that week to both months and its full weekly aggregate
(5 + 7 = 12, including the February day) enters both months' output
rows. -/
theorem c2_counterexample :
    weekContributesTo [⟨1, 30, 5⟩, ⟨1, 31, 7⟩] [197005] [23641, 23642] 197005 23641 ∧
    weekContributesTo [⟨1, 30, 5⟩, ⟨1, 31, 7⟩] [197005] [23641, 23642] 197005 23642 ∧
    (23641 : Int) ≠ 23642 ∧
    monthlyTable [⟨1, 30, 5⟩, ⟨1, 31, 7⟩] [197005] [23641, 23642] =
      [⟨1, 23641, 12⟩, ⟨1, 23642, 12⟩] := by
  decide

/-- Claim C10 (amended): provided CHECKSUMS.md exists and parses to a
nonempty table, verify mode exits 0 iff no file on disk listed in the
table has a sha256 differing from its recorded value; files on disk that
are absent from the table are only reported and never cause a nonzero
exit (they do not affect the iff).  A missing or empty table exits 2 even
though no listed file differs (see the counterexample). -/
theorem c10_verify_exit (ref files : List (String × String)) (href : ref ≠ []) :
    verifyExitCode ref files = 0 ↔ mismatchFree ref files := by
  unfold verifyExitCode
  rw [if_neg href]
  have hiff : verifyBadCount ref files = 0 ↔ mismatchFree ref files := by
    unfold verifyBadCount mismatchFree
    rw [List.countP_eq_zero]
    constructor
    · intro h e he shaRef hsha
      have hp := h e he
      rw [hsha] at hp
      simpa using hp
    · intro h e he
      cases hsha : lookupRef ref e.1 with
      | none => simp
      | some shaRef =>
          have := h e he shaRef hsha
          simp [this]
  constructor
  · intro h
    by_cases hc : verifyBadCount ref files = 0
    · exact hiff.mp hc
    · rw [if_neg hc] at h
      exact absurd h one_ne_zero
  · intro h
    rw [if_pos (hiff.mpr h)]

/-- Witness for C10 (amended) at a one-file, one-row table whose recorded
and actual hashes agree. -/
theorem c10_witness :
    verifyExitCode [("a", "x")] [("a", "x")] = 0 ↔
      mismatchFree [("a", "x")] [("a", "x")] :=
  c10_verify_exit [("a", "x")] [("a", "x")] (by decide)

/-- Counterexample to claim C10 as stated: with CHECKSUMS.md missing or
parsing to an empty table, no listed file has a differing sha256, yet
verify mode exits 2, not 0. -/
theorem c10_counterexample :
    mismatchFree [] [] ∧ verifyExitCode [] [] ≠ 0 := by
  decide

